import Mathlib

/-!
A verification development for the We3Vision backend (Express/Mongoose REST
API).  The JavaScript sources are shallowly embedded: strings are `List Char`,
machine numbers are `Int`/`Nat`, the document store is an explicit list of
documents, and each route handler or model hook that the properties mention is
translated into a pure Lean function following the source line by line.
External library primitives (JS `String`/`Number` builtins, `jwt.verify`,
`mongoose.Types.ObjectId.isValid`) are modelled from their documented
behaviour, restricted to the fragments the embedded code exercises.
-/

namespace We3

/-! ## Character classes

`isLowerAlnum` embeds the regex class `[a-z0-9]` by code points;
`isJsWhitespace` embeds the JS regex class `\s` (ECMAScript WhiteSpace and
LineTerminator code points).  `jsToLower` models `String.prototype.toLowerCase`
per character on the ASCII range (the only range whose lowercase image can
survive the `[^a-z0-9\s-]` strip that follows it in the slug pipeline). -/

def isLowerAlnum (c : Char) : Bool :=
  (97 ≤ c.toNat && c.toNat ≤ 122) || (48 ≤ c.toNat && c.toNat ≤ 57)

def isJsWhitespace (c : Char) : Bool :=
  c.toNat = 9 || c.toNat = 10 || c.toNat = 11 || c.toNat = 12 ||
  c.toNat = 13 || c.toNat = 32 || c.toNat = 160 || c.toNat = 0x1680 ||
  (0x2000 ≤ c.toNat && c.toNat ≤ 0x200a) || c.toNat = 0x2028 ||
  c.toNat = 0x2029 || c.toNat = 0x202f || c.toNat = 0x205f ||
  c.toNat = 0x3000 || c.toNat = 0xfeff

def jsToLower (c : Char) : Char :=
  if 65 ≤ c.toNat ∧ c.toNat ≤ 90 then Char.ofNat (c.toNat + 32) else c

/-- A character allowed in a finished slug: lower-case alphanumeric or `-`. -/
def isSlugChar (c : Char) : Bool :=
  isLowerAlnum c || c = '-'

/-! ## The slug normalization pipeline

Embeds the identical chain appearing in `Blog.js` (`pre('validate')`) and
`job.js` (`pre('save')`): lower-case, strip every character outside the class
`[a-z0-9\s-]`, replace each whitespace run `\s+` by `-`, collapse each hyphen
run `-+` to `-`, and delete the leading and trailing hyphen runs
(`^-+` and `-+$`). -/

/-- Strip step: keep only characters of the class `[a-z0-9\s-]`. -/
def stripInvalid (l : List Char) : List Char :=
  l.filter (fun c => isLowerAlnum c || isJsWhitespace c || c = '-')

/-- Whitespace step: each maximal `\s+` run becomes one `-`.  The boolean
argument records whether the previous character was whitespace. -/
def collapseWsAux : Bool → List Char → List Char
  | _, [] => []
  | prevWs, c :: rest =>
    if isJsWhitespace c then
      if prevWs then collapseWsAux true rest
      else '-' :: collapseWsAux true rest
    else c :: collapseWsAux false rest

def collapseWs (l : List Char) : List Char := collapseWsAux false l

/-- Hyphen step: each maximal `-+` run becomes one `-`. -/
def collapseDashAux : Bool → List Char → List Char
  | _, [] => []
  | prevD, c :: rest =>
    if c = '-' then
      if prevD then collapseDashAux true rest
      else '-' :: collapseDashAux true rest
    else c :: collapseDashAux false rest

def collapseDash (l : List Char) : List Char := collapseDashAux false l

/-- Removal of the trailing hyphen run (the `-+$` alternative of the final
replace). -/
def dropTrailingDashes : List Char → List Char
  | [] => []
  | c :: rest =>
    match dropTrailingDashes rest with
    | [] => if c = '-' then [] else [c]
    | xs => c :: xs

/-- Trim step: remove the leading `^-+` run and the trailing `-+$` run. -/
def trimDashes (l : List Char) : List Char :=
  dropTrailingDashes (l.dropWhile (fun c => c = '-'))

/-- The whole normalization chain shared by `Blog.js` and `job.js`. -/
def slugNormalize (title : List Char) : List Char :=
  trimDashes (collapseDash (collapseWs (stripInvalid (title.map jsToLower))))

/-- Slug derivation of `blogSchema.pre('validate')`: the bare normalization. -/
def blogSlug (title : List Char) : List Char :=
  slugNormalize title

/-! ## Decimal rendering of the timestamp suffix

`job.js` appends `${Date.now()}`; JS renders a safe nonnegative integer as its
decimal digit string, embedded here as `natDigits`. -/

def natDigitsAux : Nat → Nat → List Char → List Char
  | 0, _, acc => acc
  | fuel + 1, n, acc =>
    if n < 10 then Nat.digitChar n :: acc
    else natDigitsAux fuel (n / 10) (Nat.digitChar (n % 10) :: acc)

def natDigits (n : Nat) : List Char :=
  natDigitsAux (n + 1) n []

def jobFallbackChars : List Char := "job".data

/-- Slug derivation of `jobSchema.pre('save')`: normalize the title, fall back
to `"job"` when the normalization is empty, then append `-${Date.now()}` where
`ts` stands for the millisecond timestamp. -/
def jobSlug (title : List Char) (ts : Nat) : List Char :=
  let baseSlug := slugNormalize title
  let baseSlug := if baseSlug = [] then jobFallbackChars else baseSlug
  baseSlug ++ '-' :: natDigits ts

/-! ## JS number-to-string and string-to-number conversions

`intRepr` models how a JS template literal renders an integer-valued number;
`jsStrToNumber` models the `Number()` conversion on the integer-literal
fragment relevant to stored salary amounts (whitespace trimming, empty string
to `0`, optional sign, decimal digits; anything else is `NaN`, encoded as
`none`). -/

def intRepr (n : Int) : List Char :=
  if n < 0 then '-' :: natDigits (-n).toNat else natDigits n.toNat

/-- Render a number of tenths as a fixed-point decimal with one digit after
the point (`toFixed(1)` output shape). -/
def tenthsRender (t : Nat) : List Char :=
  natDigits (t / 10) ++ '.' :: [Nat.digitChar (t % 10)]

/-- Model of `(x / 100000).toFixed(1)` for an integer `x`: round `x / 10000`
to the nearest integer number of tenths, ties towards the larger value. -/
def toFixed1Div100000 (n : Int) : List Char :=
  if (n + 5000).fdiv 10000 < 0 then
    '-' :: tenthsRender ((-(n + 5000).fdiv 10000)).toNat
  else tenthsRender ((n + 5000).fdiv 10000).toNat

/-- Model of `(x / 1000).toFixed(0)` for an integer `x`: round to the nearest
integer, ties towards the larger value. -/
def toFixed0Div1000 (n : Int) : List Char :=
  intRepr ((n + 500).fdiv 1000)

def allDigits (l : List Char) : Bool :=
  l.all (fun c => 48 ≤ c.toNat && c.toNat ≤ 57)

def digitsVal (l : List Char) : Nat :=
  l.foldl (fun a c => a * 10 + (c.toNat - 48)) 0

def digitsToNat? (l : List Char) : Option Nat :=
  if !l.isEmpty && allDigits l then some (digitsVal l) else none

def jsTrim (s : List Char) : List Char :=
  ((s.dropWhile isJsWhitespace).reverse.dropWhile isJsWhitespace).reverse

def jsStrToNumber (s : List Char) : Option Int :=
  match jsTrim s with
  | [] => some 0
  | '-' :: rest => (digitsToNat? rest).map (fun n => -(n : Int))
  | '+' :: rest => (digitsToNat? rest).map (fun n => (n : Int))
  | t => (digitsToNat? t).map (fun n => (n : Int))

/-! ## The salary-range virtual of `job.js`

A stored amount is a JS value: absent (`undefined`), a number, or — because
the schema is not strictly enforced at the store layer — a string.  `truthy`
is JS truthiness on these values; `jsToNumber` is the `Number(amount)` call
of `formatSalary` (absent gives `NaN`). -/

inductive SAmount where
  | absent
  | num (n : Int)
  | str (s : List Char)
deriving DecidableEq

def truthy : SAmount → Bool
  | .absent => false
  | .num n => decide (n ≠ 0)
  | .str s => !s.isEmpty

def jsToNumber : SAmount → Option Int
  | .absent => none
  | .num n => some n
  | .str s => jsStrToNumber s

def notSpecifiedChars : List Char := "Not specified".data
def invalidChars : List Char := "Invalid".data
def yearlyChars : List Char := "yearly".data
def monthlyChars : List Char := "monthly".data
def hourlyChars : List Char := "hourly".data
def hrSuffixChars : List Char := "/hr".data
def upToChars : List Char := "Up to ".data
def rangeSepChars : List Char := " - ".data
def plusSepChars : List Char := "+ ".data

/-- The inner `formatSalary` closure of the `salaryRange` virtual: `NaN`
check first, then magnitude scaling for yearly or monthly periods, the
`/hr` suffix for hourly, and the bare integer otherwise. -/
def formatSalary (period : List Char) (a : SAmount) : List Char :=
  match jsToNumber a with
  | none => invalidChars
  | some n =>
    if period = yearlyChars then
      if n ≥ 100000 then toFixed1Div100000 n ++ ['L']
      else if n ≥ 1000 then toFixed0Div1000 n ++ ['K']
      else intRepr n
    else if period = monthlyChars then
      if n ≥ 100000 then toFixed1Div100000 n ++ ['L']
      else if n ≥ 1000 then toFixed0Div1000 n ++ ['K']
      else intRepr n
    else if period = hourlyChars then
      intRepr n ++ hrSuffixChars
    else intRepr n

structure JobSalary where
  min : SAmount
  max : SAmount
  currency : List Char
  period : List Char
deriving DecidableEq

/-- The `salaryRange` virtual: absent salary or two non-truthy bounds give
`"Not specified"`; both bounds truthy give the range form; one truthy bound
gives the `"min+"` or `"Up to max"` form. -/
def salaryRange (salary : Option JobSalary) : List Char :=
  match salary with
  | none => notSpecifiedChars
  | some s =>
    if !truthy s.min && !truthy s.max then notSpecifiedChars
    else if truthy s.min && truthy s.max then
      formatSalary s.period s.min ++ rangeSepChars ++
        formatSalary s.period s.max ++ ' ' :: (s.currency ++ '/' :: s.period)
    else if truthy s.min then
      formatSalary s.period s.min ++ plusSepChars ++
        (s.currency ++ '/' :: s.period)
    else if truthy s.max then
      upToChars ++ formatSalary s.period s.max ++ ' ' ::
        (s.currency ++ '/' :: s.period)
    else notSpecifiedChars

/-! ## The `isOpen` virtual of `job.js` -/

structure JobDoc where
  isActive : Bool
  applicationDeadline : Option Int
deriving DecidableEq

/-- Open status at time `now` (milliseconds): inactive gives false; a set
deadline strictly in the past gives false; otherwise true. -/
def isOpen (j : JobDoc) (now : Int) : Bool :=
  if !j.isActive then false
  else
    match j.applicationDeadline with
    | some d => if now > d then false else true
    | none => true

/-! ## Authentication middleware (`middleware/auth.js`)

`jwt.verify` and `User.findById` are external collaborators, passed in as
function parameters.  `tokenOf` embeds the header parsing shared by `protect`
and `optionalAuth` (`authorization` header starting with `Bearer`, token is
`split(' ')[1]`), folding in the JS falsiness check on the extracted token
(`undefined` or the empty string resolve to no token). -/

structure UserDoc where
  uid : List Char
  role : List Char
deriving DecidableEq

def strStartsWith : List Char → List Char → Bool
  | [], _ => true
  | _ :: _, [] => false
  | p :: ps, c :: cs => p = c && strStartsWith ps cs

/-- JS `String.prototype.split` with a single-character separator, keeping
empty groups. -/
def splitOnChar (sep : Char) : List Char → List (List Char)
  | [] => [[]]
  | c :: rest =>
    if c = sep then [] :: splitOnChar sep rest
    else
      match splitOnChar sep rest with
      | [] => [[c]]
      | g :: gs => (c :: g) :: gs

def bearerChars : List Char := "Bearer".data
def adminChars : List Char := "admin".data

def tokenOf (authHeader : Option (List Char)) : Option (List Char) :=
  match authHeader with
  | none => none
  | some h =>
    if strStartsWith bearerChars h then
      match (splitOnChar ' ' h)[1]? with
      | some t => if t.isEmpty then none else some t
      | none => none
    else none

inductive ProtectRes where
  | unauthorized
  | proceed (user : Option UserDoc)
deriving DecidableEq

/-- The mandatory-auth middleware `protect`: no token or failed verification
responds 401; otherwise the request proceeds with the looked-up user. -/
def protect (authHeader : Option (List Char))
    (verify : List Char → Option (List Char))
    (findById : List Char → Option UserDoc) : ProtectRes :=
  match tokenOf authHeader with
  | none => .unauthorized
  | some t =>
    match verify t with
    | none => .unauthorized
    | some uid => .proceed (findById uid)

/-- The optional-auth middleware `optionalAuth`: always calls `next()`; the
value is the resolved `req.user` (none when the token is missing or
invalid). -/
def optionalAuth (authHeader : Option (List Char))
    (verify : List Char → Option (List Char))
    (findById : List Char → Option UserDoc) : Option UserDoc :=
  match tokenOf authHeader with
  | none => none
  | some t =>
    match verify t with
    | none => none
    | some uid => findById uid

/-! ## Media deletion by filename (`routes/media.js`) -/

def mediaAllowedChar (c : Char) : Bool :=
  (65 ≤ c.toNat && c.toNat ≤ 90) || (97 ≤ c.toNat && c.toNat ≤ 122) ||
  (48 ≤ c.toNat && c.toNat ≤ 57) || c = '_' || c = '.' || c = '-' || c = ' '

def containsDotDot : List Char → Bool
  | [] => false
  | [_] => false
  | a :: b :: rest => (a = '.' && b = '.') || containsDotDot (b :: rest)

inductive MediaDelRes where
  | badRequest
  | unlink (filename : List Char)
deriving DecidableEq

/-- The `DELETE :filename` handler's validation: reject path separators and
`..` first, then enforce the character allow-list regex; only then touch
storage (`unlink`). -/
def deleteMediaFile (raw : List Char) : MediaDelRes :=
  if raw.contains '/' || raw.contains '\\' || containsDotDot raw then
    .badRequest
  else if raw.isEmpty || !raw.all mediaAllowedChar then
    .badRequest
  else
    .unlink raw

/-! ## Comment deletion (`routes/blog.js`)

`mongoose.Types.ObjectId.isValid` is modelled on strings: a 24-character hex
string or a 12-character string.  The store is the list of blog documents;
`findBlogWithComment` embeds the `findOne` on `_id` and `comments._id` with
the positional `comments.$` projection (the first matching comment). -/

def isHexDigit (c : Char) : Bool :=
  (48 ≤ c.toNat && c.toNat ≤ 57) || (97 ≤ c.toNat && c.toNat ≤ 102) ||
  (65 ≤ c.toNat && c.toNat ≤ 70)

def isValidObjectId (s : List Char) : Bool :=
  (s.length = 24 && s.all isHexDigit) || s.length = 12

structure BComment where
  cid : List Char
  user : List Char
  text : List Char
deriving DecidableEq

structure BlogDoc where
  bid : List Char
  author : List Char
  comments : List BComment
deriving DecidableEq

inductive DelCommentRes where
  | invalidId
  | notFound
  | forbidden
  | ok (remaining : List BComment)
deriving DecidableEq

def findBlogWithComment (store : List BlogDoc) (bid cid : List Char) :
    Option (BlogDoc × BComment) :=
  match store.find? (fun b =>
      decide (b.bid = bid) && b.comments.any (fun c => decide (c.cid = cid))) with
  | none => none
  | some b => (b.comments.find? (fun c => decide (c.cid = cid))).map (fun c => (b, c))

/-- The authorization tail of the handler, after the blog and comment were
found: comment author, admin role, or blog author may act; otherwise 403.
On success the `$pull` update runs and the remaining comments are returned. -/
def commentAuthStep (caller : UserDoc) (b : BlogDoc) (c : BComment)
    (rawCommentId : List Char) : DelCommentRes :=
  let isOwner := decide (c.user = caller.uid)
  let isAdmin := decide (caller.role = adminChars)
  let isBlogAuthor := decide (b.author = caller.uid)
  if !isOwner && !isAdmin && !isBlogAuthor then .forbidden
  else .ok (b.comments.filter (fun x => !decide (x.cid = rawCommentId)))

/-- The `DELETE :id/comment/:commentId` handler: identifier-shape validation
(400), then existence (404), then the three-way authorization check (403),
then the `$pull` update whose resulting comment list is returned (200). -/
def deleteComment (store : List BlogDoc) (caller : UserDoc)
    (rawId rawCommentId : List Char) : DelCommentRes :=
  if !isValidObjectId rawId || !isValidObjectId rawCommentId then
    .invalidId
  else
    match findBlogWithComment store rawId rawCommentId with
    | none => .notFound
    | some (b, c) => commentAuthStep caller b c rawCommentId

/-! ## The duplicate-key catch branches of the create routes -/

structure StoreError where
  code : Option Int
  name : List Char
  keyValue : Option (List Char × List Char)
deriving DecidableEq

inductive CatchResp where
  | conflict (keyValue : Option (List Char × List Char))
  | badRequest (message : List Char)
  | serverError
deriving DecidableEq

def httpStatus : CatchResp → Nat
  | .conflict _ => 409
  | .badRequest _ => 400
  | .serverError => 500

def mongoServerErrorChars : List Char := "MongoServerError".data
def jobDupMsgChars : List Char := "A job with this title already exists".data

/-- The `catch` of `POST /api/blog`: code 11000 or name `MongoServerError`
responds 409 with the error's `keyValue`; anything else is a 500. -/
def blogCreateCatch (e : StoreError) : CatchResp :=
  if e.code = some 11000 ∨ e.name = mongoServerErrorChars then
    .conflict e.keyValue
  else .serverError

/-- The `catch` of `POST /api/job`: code 11000 responds 400 with a fixed
message (no `keyValue`); anything else is a 500. -/
def jobCreateCatch (e : StoreError) : CatchResp :=
  if e.code = some 11000 then .badRequest jobDupMsgChars
  else .serverError

/-! ## Concrete sample data for the closed instantiations -/

def engineerChars : List Char := "Engineer".data
def inrChars : List Char := "INR".data
def hundredKStrChars : List Char := "100k".data
def oneDecimalLChars : List Char := "1.0L".data
def fiveKChars : List Char := "5K".data
def oneFiftyHrChars : List Char := "150/hr".data
def dotDotChars : List Char := "..".data
def userRoleChars : List Char := "user".data
def aliceIdChars : List Char := "aaaaaaaaaaaaaaaaaaaaaaaa".data
def bobIdChars : List Char := "bbbbbbbbbbbbbbbbbbbbbbbb".data
def carolIdChars : List Char := "cccccccccccccccccccccccc".data
def commentIdChars : List Char := "dddddddddddddddddddddddd".data
def blogIdChars : List Char := "eeeeeeeeeeeeeeeeeeeeeeee".data
def sampleTextChars : List Char := "nice post".data
def sampleComment : BComment := ⟨commentIdChars, aliceIdChars, sampleTextChars⟩
def sampleBlog : BlogDoc := ⟨blogIdChars, bobIdChars, [sampleComment]⟩
def sampleStore : List BlogDoc := [sampleBlog]
def carolUser : UserDoc := ⟨carolIdChars, userRoleChars⟩
def bobUser : UserDoc := ⟨bobIdChars, userRoleChars⟩
def slugFieldChars : List Char := "slug".data
def myTitleChars : List Char := "my-title".data
def sampleDupErr : StoreError :=
  ⟨some 11000, mongoServerErrorChars, some (slugFieldChars, myTitleChars)⟩

/-! ## Basic facts about the pipeline stages -/

/-- No adjacent pair of hyphens anywhere in the list. -/
def noAdjDash : List Char → Bool
  | [] => true
  | [_] => true
  | a :: b :: rest => !(a = '-' && b = '-') && noAdjDash (b :: rest)

theorem noAdjDash_cons {c : Char} {xs : List Char}
    (h1 : c = '-' → xs.head? ≠ some '-') (h2 : noAdjDash xs = true) :
    noAdjDash (c :: xs) = true := by
  cases xs with
  | nil => rfl
  | cons b rest =>
    simp only [noAdjDash, Bool.and_eq_true, Bool.not_eq_true']
    refine ⟨?_, h2⟩
    by_cases hc : c = '-'
    · have hb : b ≠ '-' := by
        intro hb'
        exact h1 hc (by simp [hb'])
      simp [hc, hb]
    · simp [hc]

theorem noAdjDash_tail {c : Char} {xs : List Char}
    (h : noAdjDash (c :: xs) = true) : noAdjDash xs = true := by
  cases xs with
  | nil => rfl
  | cons b rest =>
    simp only [noAdjDash, Bool.and_eq_true] at h
    exact h.2

theorem noAdjDash_head {xs : List Char}
    (h : noAdjDash ('-' :: xs) = true) : xs.head? ≠ some '-' := by
  cases xs with
  | nil => simp
  | cons b rest =>
    intro hb
    simp only [List.head?_cons, Option.some.injEq] at hb
    subst hb
    simp [noAdjDash] at h

theorem mem_collapseWsAux {c : Char} :
    ∀ (b : Bool) (l : List Char), c ∈ collapseWsAux b l →
      c = '-' ∨ (c ∈ l ∧ isJsWhitespace c = false) := by
  intro b l
  induction l generalizing b with
  | nil => simp [collapseWsAux]
  | cons a rest ih =>
    intro hmem
    simp only [collapseWsAux] at hmem
    by_cases hws : isJsWhitespace a
    · simp only [hws, if_true] at hmem
      by_cases hb : b
      · rcases ih true (by simpa [hb] using hmem) with h | h
        · exact Or.inl h
        · exact Or.inr ⟨List.mem_cons_of_mem _ h.1, h.2⟩
      · simp only [hb, if_false] at hmem
        rcases List.mem_cons.mp hmem with h | h
        · exact Or.inl h
        · rcases ih true h with h' | h'
          · exact Or.inl h'
          · exact Or.inr ⟨List.mem_cons_of_mem _ h'.1, h'.2⟩
    · simp only [hws, if_false] at hmem
      rcases List.mem_cons.mp hmem with h | h
      · subst h
        exact Or.inr ⟨List.mem_cons_self _ _, by simpa using hws⟩
      · rcases ih false h with h' | h'
        · exact Or.inl h'
        · exact Or.inr ⟨List.mem_cons_of_mem _ h'.1, h'.2⟩

theorem mem_collapseDashAux {c : Char} :
    ∀ (b : Bool) (l : List Char), c ∈ collapseDashAux b l → c ∈ l := by
  intro b l
  induction l generalizing b with
  | nil => simp [collapseDashAux]
  | cons a rest ih =>
    intro hmem
    simp only [collapseDashAux] at hmem
    by_cases ha : a = '-'
    · simp only [ha, if_true] at hmem
      by_cases hb : b
      · exact List.mem_cons_of_mem _ (ih true (by simpa [hb] using hmem))
      · simp only [hb, if_false] at hmem
        rcases List.mem_cons.mp hmem with h | h
        · simp [ha, h]
        · exact List.mem_cons_of_mem _ (ih true h)
    · simp only [ha, if_false] at hmem
      rcases List.mem_cons.mp hmem with h | h
      · simp [h]
      · exact List.mem_cons_of_mem _ (ih false h)

theorem mem_dropWhile {c : Char} {p : Char → Bool} :
    ∀ l : List Char, c ∈ l.dropWhile p → c ∈ l := by
  intro l
  induction l with
  | nil => simp
  | cons a rest ih =>
    intro hmem
    by_cases ha : p a
    · rw [List.dropWhile_cons_of_pos ha] at hmem
      exact List.mem_cons_of_mem _ (ih hmem)
    · rwa [List.dropWhile_cons_of_neg ha] at hmem

theorem mem_dropTrailingDashes {c : Char} :
    ∀ l : List Char, c ∈ dropTrailingDashes l → c ∈ l := by
  intro l
  induction l with
  | nil => simp [dropTrailingDashes]
  | cons a rest ih =>
    intro hmem
    simp only [dropTrailingDashes] at hmem
    cases hrec : dropTrailingDashes rest with
    | nil =>
      rw [hrec] at hmem
      by_cases ha : a = '-'
      · simp [ha] at hmem
      · simp only [ha, if_false, List.mem_singleton] at hmem
        simp [hmem]
    | cons x xs =>
      rw [hrec] at hmem
      rcases List.mem_cons.mp hmem with h | h
      · simp [h]
      · exact List.mem_cons_of_mem _ (ih (by rw [hrec]; exact h))

theorem collapseDashAux_true_head :
    ∀ l : List Char, (collapseDashAux true l).head? ≠ some '-' := by
  intro l
  induction l with
  | nil => simp [collapseDashAux]
  | cons a rest ih =>
    by_cases ha : a = '-'
    · simpa [collapseDashAux, ha] using ih
    · simp only [collapseDashAux, if_neg ha, List.head?_cons, ne_eq,
        Option.some.injEq]
      exact ha

theorem noAdjDash_collapseDashAux :
    ∀ (l : List Char) (b : Bool), noAdjDash (collapseDashAux b l) = true := by
  intro l
  induction l with
  | nil => intro b; rfl
  | cons a rest ih =>
    intro b
    by_cases ha : a = '-'
    · cases b with
      | true => simpa [collapseDashAux, ha] using ih true
      | false =>
        simp only [collapseDashAux, ha, if_true, if_false, Bool.false_eq_true]
        exact noAdjDash_cons (fun _ => collapseDashAux_true_head rest) (ih true)
    · simp only [collapseDashAux, ha, if_false]
      exact noAdjDash_cons (fun hc => absurd hc ha) (ih false)

theorem noAdjDash_dropWhile {p : Char → Bool} :
    ∀ l : List Char, noAdjDash l = true → noAdjDash (l.dropWhile p) = true := by
  intro l
  induction l with
  | nil => simp
  | cons a rest ih =>
    intro h
    by_cases ha : p a
    · rw [List.dropWhile_cons_of_pos ha]
      exact ih (noAdjDash_tail h)
    · rwa [List.dropWhile_cons_of_neg ha]

theorem dropTrailingDashes_head? {x : Char} :
    ∀ l : List Char, (dropTrailingDashes l).head? = some x →
      l.head? = some x := by
  intro l
  induction l with
  | nil => simp [dropTrailingDashes]
  | cons c rest _ =>
    intro h
    simp only [dropTrailingDashes] at h
    cases hrec : dropTrailingDashes rest with
    | nil =>
      rw [hrec] at h
      by_cases hc : c = '-'
      · simp [hc] at h
      · simp only [hc, if_false, List.head?_cons, Option.some.injEq] at h
        simp [h]
    | cons y ys =>
      rw [hrec] at h
      simp only [List.head?_cons, Option.some.injEq] at h
      simp [h]

theorem dropTrailingDashes_getLast? :
    ∀ l : List Char, (dropTrailingDashes l).getLast? ≠ some '-' := by
  intro l
  induction l with
  | nil => simp [dropTrailingDashes]
  | cons c rest ih =>
    simp only [dropTrailingDashes]
    cases hrec : dropTrailingDashes rest with
    | nil =>
      by_cases hc : c = '-'
      · simp [hc]
      · simp only [if_neg hc, List.getLast?_singleton, ne_eq,
          Option.some.injEq]
        exact hc
    | cons y ys =>
      rw [List.getLast?_cons_cons]
      rw [hrec] at ih
      exact ih

theorem noAdjDash_dropTrailingDashes :
    ∀ l : List Char, noAdjDash l = true →
      noAdjDash (dropTrailingDashes l) = true := by
  intro l
  induction l with
  | nil => intro _; rfl
  | cons c rest ih =>
    intro h
    simp only [dropTrailingDashes]
    cases hrec : dropTrailingDashes rest with
    | nil =>
      by_cases hc : c = '-' <;> simp [hc, noAdjDash]
    | cons y ys =>
      refine noAdjDash_cons ?_ (by rw [← hrec]; exact ih (noAdjDash_tail h))
      intro hc
      subst hc
      have hy : rest.head? = some y :=
        dropTrailingDashes_head? rest (by rw [hrec]; rfl)
      have hne := noAdjDash_head h
      simp only [List.head?_cons, ne_eq, Option.some.injEq]
      intro hy'
      subst hy'
      exact hne hy

theorem dropWhile_head? {p : Char → Bool} {x : Char} :
    ∀ l : List Char, (l.dropWhile p).head? = some x → p x = false := by
  intro l
  induction l with
  | nil => simp
  | cons a rest ih =>
    intro h
    by_cases ha : p a
    · rw [List.dropWhile_cons_of_pos ha] at h
      exact ih h
    · rw [List.dropWhile_cons_of_neg ha] at h
      simp only [List.head?_cons, Option.some.injEq] at h
      subst h
      simpa using ha

/-! ## Shape of the normalized slug (the claims' invariants) -/

theorem slugNormalize_mem {c : Char} {t : List Char}
    (h : c ∈ slugNormalize t) : isSlugChar c = true := by
  have h1 : c ∈ List.dropWhile (fun c => c = '-')
      (collapseDash (collapseWs (stripInvalid (t.map jsToLower)))) :=
    mem_dropTrailingDashes _ h
  have h2 : c ∈ collapseDash (collapseWs (stripInvalid (t.map jsToLower))) :=
    mem_dropWhile _ h1
  have h3 : c ∈ collapseWs (stripInvalid (t.map jsToLower)) :=
    mem_collapseDashAux false _ h2
  rcases mem_collapseWsAux false _ h3 with hd | hmem
  · subst hd
    decide
  · obtain ⟨hin, hws⟩ := hmem
    have hp := (List.mem_filter.mp hin).2
    simp only [Bool.or_eq_true, decide_eq_true_eq] at hp
    rcases hp with (hp | hp) | hp
    · simp [isSlugChar, hp]
    · simp [hws] at hp
    · subst hp
      decide

theorem slugNormalize_noAdjDash (t : List Char) :
    noAdjDash (slugNormalize t) = true :=
  noAdjDash_dropTrailingDashes _
    (noAdjDash_dropWhile _ (noAdjDash_collapseDashAux _ false))

theorem slugNormalize_head (t : List Char) :
    (slugNormalize t).head? ≠ some '-' := by
  intro h
  have h1 := dropTrailingDashes_head? _ h
  have h2 := dropWhile_head? _ h1
  simp at h2

theorem slugNormalize_getLast (t : List Char) :
    (slugNormalize t).getLast? ≠ some '-' :=
  dropTrailingDashes_getLast? _

/-! ## Idempotence of the normalization -/

theorem map_id_of_mem {f : Char → Char} :
    ∀ l : List Char, (∀ c ∈ l, f c = c) → l.map f = l := by
  intro l
  induction l with
  | nil => intro _; rfl
  | cons a rest ih =>
    intro h
    simp only [List.map_cons]
    rw [h a (List.mem_cons_self _ _), ih (fun c hc => h c (List.mem_cons_of_mem _ hc))]

theorem jsToLower_slugChar {c : Char} (h : isSlugChar c = true) :
    jsToLower c = c := by
  simp only [isSlugChar, isLowerAlnum, Bool.or_eq_true, Bool.and_eq_true,
    decide_eq_true_eq] at h
  rcases h with (h | h) | h
  · rw [jsToLower, if_neg]
    omega
  · rw [jsToLower, if_neg]
    omega
  · subst h
    decide

theorem slugChar_not_ws {c : Char} (h : isSlugChar c = true) :
    isJsWhitespace c = false := by
  simp only [isSlugChar, isLowerAlnum, Bool.or_eq_true, Bool.and_eq_true,
    decide_eq_true_eq] at h
  rcases h with (h | h) | h
  · simp only [isJsWhitespace, Bool.or_eq_false_iff, Bool.and_eq_false_iff,
      decide_eq_false_iff_not]
    omega
  · simp only [isJsWhitespace, Bool.or_eq_false_iff, Bool.and_eq_false_iff,
      decide_eq_false_iff_not]
    omega
  · subst h
    decide

theorem stripInvalid_id {l : List Char} (h : ∀ c ∈ l, isSlugChar c = true) :
    stripInvalid l = l := by
  induction l with
  | nil => rfl
  | cons a rest ih =>
    have ha := h a (List.mem_cons_self _ _)
    have hkeep : (isLowerAlnum a || isJsWhitespace a || decide (a = '-')) = true := by
      simp only [isSlugChar, Bool.or_eq_true] at ha ⊢
      rcases ha with ha | ha
      · exact Or.inl (Or.inl ha)
      · exact Or.inr ha
    simp only [stripInvalid, List.filter_cons, hkeep, if_true]
    have := ih (fun c hc => h c (List.mem_cons_of_mem _ hc))
    simp only [stripInvalid] at this
    rw [this]

theorem collapseWsAux_id {l : List Char}
    (h : ∀ c ∈ l, isJsWhitespace c = false) :
    ∀ b, collapseWsAux b l = l := by
  induction l with
  | nil => intro _; rfl
  | cons a rest ih =>
    intro b
    have ha := h a (List.mem_cons_self _ _)
    simp only [collapseWsAux, ha, Bool.false_eq_true, if_false]
    rw [ih (fun c hc => h c (List.mem_cons_of_mem _ hc)) false]

theorem collapseDashAux_id :
    ∀ (l : List Char) (b : Bool), (b = true → l.head? ≠ some '-') →
      noAdjDash l = true → collapseDashAux b l = l := by
  intro l
  induction l with
  | nil => intro b _ _; rfl
  | cons a rest ih =>
    intro b hb hadj
    by_cases ha : a = '-'
    · have hbf : b = false := by
        cases b with
        | false => rfl
        | true => exact absurd (by simp [ha]) (hb rfl)
      subst hbf
      subst ha
      have hstep : collapseDashAux false ('-' :: rest) =
          '-' :: collapseDashAux true rest := rfl
      rw [hstep, ih true (fun _ => noAdjDash_head hadj) (noAdjDash_tail hadj)]
    · simp only [collapseDashAux, if_neg ha]
      rw [ih false (fun hf => absurd hf (by simp)) (noAdjDash_tail hadj)]

theorem dropWhile_id {p : Char → Bool} :
    ∀ l : List Char, (∀ x, l.head? = some x → p x = false) →
      l.dropWhile p = l := by
  intro l h
  cases l with
  | nil => rfl
  | cons a rest =>
    have := h a rfl
    rw [List.dropWhile_cons_of_neg (by simp [this])]

theorem dropTrailingDashes_id :
    ∀ l : List Char, l.getLast? ≠ some '-' → dropTrailingDashes l = l := by
  intro l
  induction l with
  | nil => intro _; rfl
  | cons c rest ih =>
    intro h
    cases rest with
    | nil =>
      have hc : c ≠ '-' := by
        intro hc
        exact h (by simp [hc])
      simp [dropTrailingDashes, hc]
    | cons d rest' =>
      have h' : (d :: rest').getLast? ≠ some '-' := by
        rwa [List.getLast?_cons_cons] at h
      have hunfold : dropTrailingDashes (c :: d :: rest') =
          match dropTrailingDashes (d :: rest') with
          | [] => if c = '-' then [] else [c]
          | xs => c :: xs := rfl
      rw [hunfold, ih h']

theorem slugNormalize_id {l : List Char}
    (hchar : ∀ c ∈ l, isSlugChar c = true)
    (hadj : noAdjDash l = true)
    (hhead : l.head? ≠ some '-')
    (hlast : l.getLast? ≠ some '-') :
    slugNormalize l = l := by
  unfold slugNormalize trimDashes collapseWs collapseDash
  rw [map_id_of_mem l (fun c hc => jsToLower_slugChar (hchar c hc)),
    stripInvalid_id hchar,
    collapseWsAux_id (fun c hc => slugChar_not_ws (hchar c hc)) false,
    collapseDashAux_id l false (fun hf => absurd hf (by simp)) hadj,
    dropWhile_id l ?_, dropTrailingDashes_id l hlast]
  intro x hx
  simp only [decide_eq_false_iff_not]
  intro hx'
  subst hx'
  exact hhead hx

/-! ## Decimal rendering: correctness and injectivity -/

theorem digitChar_toNat {m : Nat} (h : m < 10) :
    (Nat.digitChar m).toNat = 48 + m := by
  interval_cases m <;> decide

theorem digitChar_inj {a b : Nat} (ha : a < 10) (hb : b < 10)
    (h : Nat.digitChar a = Nat.digitChar b) : a = b := by
  have h' : (Nat.digitChar a).toNat = (Nat.digitChar b).toNat := by rw [h]
  rw [digitChar_toNat ha, digitChar_toNat hb] at h'
  omega

theorem map_digitChar_inj :
    ∀ l1 l2 : List Nat, (∀ x ∈ l1, x < 10) → (∀ x ∈ l2, x < 10) →
      l1.map Nat.digitChar = l2.map Nat.digitChar → l1 = l2 := by
  intro l1
  induction l1 with
  | nil =>
    intro l2 _ _ h
    cases l2 with
    | nil => rfl
    | cons b bs => simp at h
  | cons a as ih =>
    intro l2 h1 h2 h
    cases l2 with
    | nil => simp at h
    | cons b bs =>
      simp only [List.map_cons, List.cons.injEq] at h
      have hab := digitChar_inj (h1 a (List.mem_cons_self _ _))
        (h2 b (List.mem_cons_self _ _)) h.1
      rw [hab, ih bs (fun x hx => h1 x (List.mem_cons_of_mem _ hx))
        (fun x hx => h2 x (List.mem_cons_of_mem _ hx)) h.2]

theorem natDigitsAux_eq :
    ∀ (fuel n : Nat) (acc : List Char), n < fuel →
      natDigitsAux fuel n acc =
        (if n = 0 then ['0']
         else (Nat.digits 10 n).reverse.map Nat.digitChar) ++ acc := by
  intro fuel
  induction fuel with
  | zero => intro n _ h; omega
  | succ fuel ih =>
    intro n acc h
    by_cases h10 : n < 10
    · rw [natDigitsAux, if_pos h10]
      by_cases h0 : n = 0
      · subst h0; rfl
      · rw [if_neg h0]
        have hdig : Nat.digits 10 n = [n] := by
          rw [Nat.digits_def' (by omega : 1 < 10) (by omega : 0 < n)]
          rw [Nat.mod_eq_of_lt h10, Nat.div_eq_of_lt h10]
          simp
        rw [hdig]
        rfl
    · rw [natDigitsAux, if_neg h10]
      have hfl : n / 10 < fuel :=
        lt_of_lt_of_le (Nat.div_lt_self (by omega) (by omega)) (by omega)
      rw [ih (n / 10) (Nat.digitChar (n % 10) :: acc) hfl]
      have hq : ¬ n / 10 = 0 := by
        intro h'
        have hlt : n < 10 := (Nat.div_eq_zero_iff (by omega)).mp h'
        omega
      rw [if_neg hq, if_neg (show ¬ n = 0 by omega)]
      rw [Nat.digits_def' (by omega : 1 < 10) (by omega : 0 < n)]
      simp only [List.reverse_cons, List.map_append, List.map_cons,
        List.map_nil, List.append_assoc]
      rfl

theorem natDigits_eq (n : Nat) :
    natDigits n =
      (if n = 0 then ['0']
       else (Nat.digits 10 n).reverse.map Nat.digitChar) := by
  rw [natDigits, natDigitsAux_eq (n + 1) n [] (by omega), List.append_nil]

theorem natDigits_inj {m n : Nat} (h : natDigits m = natDigits n) : m = n := by
  rw [natDigits_eq, natDigits_eq] at h
  by_cases hm : m = 0 <;> by_cases hn : n = 0
  · omega
  · rw [if_pos hm, if_neg hn] at h
    have hd : (Nat.digits 10 n).reverse.map Nat.digitChar = ['0'] := h.symm
    have : (Nat.digits 10 n).reverse = [0] := by
      apply map_digitChar_inj _ [0]
      · intro x hx
        exact Nat.digits_lt_base (by omega) (List.mem_reverse.mp hx)
      · intro x hx
        simp only [List.mem_singleton] at hx
        omega
      · rw [hd]; rfl
    have hn' : Nat.digits 10 n = [0] := by
      have := congrArg List.reverse this
      simpa using this
    have := Nat.ofDigits_digits 10 n
    rw [hn'] at this
    simp [Nat.ofDigits] at this
    omega
  · rw [if_neg hm, if_pos hn] at h
    have : (Nat.digits 10 m).reverse = [0] := by
      apply map_digitChar_inj _ [0]
      · intro x hx
        exact Nat.digits_lt_base (by omega) (List.mem_reverse.mp hx)
      · intro x hx
        simp only [List.mem_singleton] at hx
        omega
      · rw [h]; rfl
    have hm' : Nat.digits 10 m = [0] := by
      have := congrArg List.reverse this
      simpa using this
    have := Nat.ofDigits_digits 10 m
    rw [hm'] at this
    simp [Nat.ofDigits] at this
    omega
  · rw [if_neg hm, if_neg hn] at h
    have hrev : (Nat.digits 10 m).reverse = (Nat.digits 10 n).reverse := by
      apply map_digitChar_inj
      · intro x hx
        exact Nat.digits_lt_base (by omega) (List.mem_reverse.mp hx)
      · intro x hx
        exact Nat.digits_lt_base (by omega) (List.mem_reverse.mp hx)
      · exact h
    have hdig : Nat.digits 10 m = Nat.digits 10 n := by
      have := congrArg List.reverse hrev
      simpa using this
    have h1 := Nat.ofDigits_digits 10 m
    have h2 := Nat.ofDigits_digits 10 n
    rw [hdig] at h1
    omega

theorem jobSlug_inj_ts {title : List Char} {t1 t2 : Nat}
    (h : jobSlug title t1 = jobSlug title t2) : t1 = t2 := by
  unfold jobSlug at h
  have h2 : '-' :: natDigits t1 = '-' :: natDigits t2 :=
    List.append_cancel_left h
  exact natDigits_inj (List.cons.inj h2).2

/-! ## The claims -/

/-- C4: for every input title, the slug produced by the normalization
pipeline contains only lower-case alphanumerics and hyphens, no two hyphens
are adjacent, and there is no leading or trailing hyphen. -/
theorem blog_slug_shape (t : List Char) :
    (blogSlug t).all isSlugChar = true ∧
    noAdjDash (blogSlug t) = true ∧
    (blogSlug t).head? ≠ some '-' ∧
    (blogSlug t).getLast? ≠ some '-' := by
  refine ⟨?_, slugNormalize_noAdjDash t, slugNormalize_head t,
    slugNormalize_getLast t⟩
  rw [List.all_eq_true]
  intro c hc
  exact slugNormalize_mem hc

/-- C5: slug normalization is deterministic (equal titles give equal slugs)
and idempotent (normalizing an already-normalized slug returns it
unchanged). -/
theorem blog_slug_idempotent (t : List Char) :
    blogSlug t = blogSlug t ∧ blogSlug (blogSlug t) = blogSlug t := by
  refine ⟨rfl, ?_⟩
  exact slugNormalize_id (fun c hc => slugNormalize_mem hc)
    (slugNormalize_noAdjDash t) (slugNormalize_head t)
    (slugNormalize_getLast t)

/-- C7: the Job slug appends the creation timestamp unconditionally, so two
creations with the same title at distinct timestamps produce distinct slugs
and no collision arises. -/
theorem job_slug_timestamp_distinct (title : List Char) (t1 t2 : Nat)
    (h : t1 ≠ t2) : jobSlug title t1 ≠ jobSlug title t2 :=
  fun he => h (jobSlug_inj_ts he)

theorem job_slug_timestamp_distinct_witness :
    jobSlug engineerChars 1700000000000 ≠ jobSlug engineerChars 1700000000001 :=
  job_slug_timestamp_distinct engineerChars 1700000000000 1700000000001
    (by decide)

/-- C3: the salary formatter maps 100000 yearly to `1.0L`, 5000 monthly to
`5K`, 150 hourly to `150/hr`, and a non-numeric stored amount such as the
string `100k` to `Invalid` for every period, without raising. -/
theorem formatSalary_examples :
    formatSalary yearlyChars (SAmount.num 100000) = oneDecimalLChars ∧
    formatSalary monthlyChars (SAmount.num 5000) = fiveKChars ∧
    formatSalary hourlyChars (SAmount.num 150) = oneFiftyHrChars ∧
    ∀ period : List Char,
      formatSalary period (SAmount.str hundredKStrChars) = invalidChars :=
  ⟨by decide, by decide, by decide, fun _ => rfl⟩

/-- C6: a Job Posting is open iff its active flag is true and it has no
deadline or the current time is at or before the deadline; in particular a
past deadline closes the posting regardless of the active flag. -/
theorem job_isOpen_spec (j : JobDoc) (now : Int) :
    (isOpen j now = true ↔
      j.isActive = true ∧
        (j.applicationDeadline = none ∨
          ∃ d, j.applicationDeadline = some d ∧ now ≤ d)) ∧
    (∀ d, j.applicationDeadline = some d → d < now →
      isOpen j now = false) := by
  obtain ⟨act, dl⟩ := j
  constructor
  · cases act with
    | false => simp [isOpen]
    | true =>
      cases dl with
      | none => simp [isOpen]
      | some d =>
        by_cases hd : now > d
        · simp only [isOpen, Bool.not_true, Bool.false_eq_true, if_false,
            if_pos hd]
          constructor
          · intro h; exact absurd h (by simp)
          · intro h
            rcases h.2 with h' | ⟨d', hd', hle⟩
            · exact absurd h' (by simp)
            · simp only [Option.some.injEq] at hd'
              omega
        · simp only [isOpen, Bool.not_true, Bool.false_eq_true, if_false,
            if_neg hd]
          constructor
          · intro _
            exact ⟨by simp, Or.inr ⟨d, rfl, by omega⟩⟩
          · intro _
            trivial
  · intro d hd hlt
    cases act with
    | false => simp [isOpen]
    | true =>
      simp only at hd
      subst hd
      simp only [isOpen, Bool.not_true, Bool.false_eq_true, if_false]
      rw [if_pos (by omega : now > d)]

theorem job_isOpen_spec_witness :
    isOpen ⟨true, some 3⟩ 5 = false :=
  (job_isOpen_spec ⟨true, some 3⟩ 5).2 3 rfl (by decide)

/-- C10: a stored lower bound equal to 0 is falsy and thus treated as
absent: with min 0 and a positive max, the result is the `Up to` form, and
with both bounds 0 the result is `Not specified`. -/
theorem salaryRange_zero_min (m : Int) (cur per : List Char) (h : 0 < m) :
    salaryRange (some ⟨SAmount.num 0, SAmount.num m, cur, per⟩) =
      upToChars ++ formatSalary per (SAmount.num m) ++ ' ' ::
        (cur ++ '/' :: per) ∧
    salaryRange (some ⟨SAmount.num 0, SAmount.num 0, cur, per⟩) =
      notSpecifiedChars := by
  have hm : truthy (SAmount.num m) = true := by
    simp only [truthy, decide_eq_true_eq]
    omega
  have h0 : truthy (SAmount.num 0) = false := by decide
  constructor
  · simp [salaryRange, hm, h0]
  · simp [salaryRange, h0]

theorem salaryRange_zero_min_witness :
    (0 : Int) < 500 ∧
    salaryRange (some ⟨SAmount.num 0, SAmount.num 500, inrChars,
        monthlyChars⟩) =
      upToChars ++ formatSalary monthlyChars (SAmount.num 500) ++ ' ' ::
        (inrChars ++ '/' :: monthlyChars) :=
  ⟨by decide, (salaryRange_zero_min 500 inrChars monthlyChars (by decide)).1⟩

/-- C9: the delete-by-filename handler answers 400, before any storage
access, for every filename containing a path separator, the parent-directory
token `..`, or any character outside the allow-list of letters, digits,
underscore, dot, hyphen and space. -/
theorem media_delete_rejects_unsafe (raw : List Char)
    (h : raw.contains '/' = true ∨ raw.contains '\\' = true ∨
      containsDotDot raw = true ∨ ∃ c ∈ raw, mediaAllowedChar c = false) :
    deleteMediaFile raw = MediaDelRes.badRequest := by
  unfold deleteMediaFile
  by_cases h1 : (raw.contains '/' || raw.contains '\\' ||
      containsDotDot raw) = true
  · rw [if_pos h1]
  · rcases h with h | h | h | ⟨c, hc, hbad⟩
    · exact absurd (by rw [h]; simp) h1
    · exact absurd (by rw [h]; simp) h1
    · exact absurd (by rw [h]; simp) h1
    · rw [if_neg h1]
      have hall : raw.all mediaAllowedChar = false := by
        cases hall : raw.all mediaAllowedChar
        · rfl
        · exact absurd (List.all_eq_true.mp hall c hc) (by simp [hbad])
      rw [if_pos (by simp [hall])]

theorem media_delete_rejects_unsafe_witness :
    deleteMediaFile dotDotChars = MediaDelRes.badRequest :=
  media_delete_rejects_unsafe dotDotChars
    (Or.inr (Or.inr (Or.inl (by decide))))

/-- C8: for the same missing or invalid bearer credential, the mandatory
middleware fails the request with 401 while the optional middleware proceeds
and resolves no identity. -/
theorem auth_modes_contrast (hdr : Option (List Char))
    (verify : List Char → Option (List Char))
    (findById : List Char → Option UserDoc)
    (h : tokenOf hdr = none ∨
      ∃ t, tokenOf hdr = some t ∧ verify t = none) :
    protect hdr verify findById = ProtectRes.unauthorized ∧
    optionalAuth hdr verify findById = none := by
  rcases h with h | ⟨t, ht, hv⟩
  · unfold protect optionalAuth
    rw [h]
    exact ⟨rfl, rfl⟩
  · unfold protect optionalAuth
    rw [ht]
    simp only [hv]
    exact ⟨trivial, trivial⟩

theorem auth_modes_contrast_witness :
    protect none (fun _ => none) (fun _ => none) = ProtectRes.unauthorized ∧
    optionalAuth none (fun _ => none) (fun _ => none) = none :=
  auth_modes_contrast none (fun _ => none) (fun _ => none) (Or.inl rfl)

/-- C2 counterexample: at a store duplicate-key error (code 11000), the job
create catch answers HTTP 400 with a fixed message and no conflicting
field/value — not the claimed uniform 409 ConflictError — while the blog
create catch answers 409. -/
theorem job_create_conflict_counterexample :
    httpStatus (jobCreateCatch sampleDupErr) = 400 ∧
    jobCreateCatch sampleDupErr = CatchResp.badRequest jobDupMsgChars ∧
    httpStatus (blogCreateCatch sampleDupErr) = 409 := by
  refine ⟨rfl, rfl, ?_⟩
  rw [show blogCreateCatch sampleDupErr =
    CatchResp.conflict sampleDupErr.keyValue from rfl]
  rfl

/-- C2 (amended): a duplicate-key failure (code 11000) is translated by the
blog create route into a 409 conflict carrying the error's `keyValue`, but
by the job create route into a 400 with a fixed message carrying no
field/value. -/
theorem create_catch_duplicate_statuses (e : StoreError)
    (h : e.code = some 11000) :
    blogCreateCatch e = CatchResp.conflict e.keyValue ∧
    jobCreateCatch e = CatchResp.badRequest jobDupMsgChars := by
  unfold blogCreateCatch jobCreateCatch
  rw [if_pos (Or.inl h), if_pos h]
  exact ⟨rfl, rfl⟩

theorem create_catch_duplicate_statuses_witness :
    blogCreateCatch sampleDupErr = CatchResp.conflict sampleDupErr.keyValue ∧
    jobCreateCatch sampleDupErr = CatchResp.badRequest jobDupMsgChars :=
  create_catch_duplicate_statuses sampleDupErr rfl

/-- C1: comment deletion validates identifier shape first (400), then
existence (404, regardless of the caller), and only then authorization: the
caller succeeds iff they authored the comment, hold the admin role, or own
the parent blog, and failing all three yields 403. -/
theorem delete_comment_authorization :
    (∀ (store : List BlogDoc) (caller : UserDoc) (r1 r2 : List Char),
        isValidObjectId r1 = false ∨ isValidObjectId r2 = false →
        deleteComment store caller r1 r2 = DelCommentRes.invalidId) ∧
    (∀ (store : List BlogDoc) (caller : UserDoc) (r1 r2 : List Char),
        isValidObjectId r1 = true → isValidObjectId r2 = true →
        findBlogWithComment store r1 r2 = none →
        deleteComment store caller r1 r2 = DelCommentRes.notFound) ∧
    (∀ (store : List BlogDoc) (caller : UserDoc) (r1 r2 : List Char)
        (b : BlogDoc) (c : BComment),
        isValidObjectId r1 = true → isValidObjectId r2 = true →
        findBlogWithComment store r1 r2 = some (b, c) →
        (deleteComment store caller r1 r2 =
            DelCommentRes.ok
              (b.comments.filter (fun x => !decide (x.cid = r2))) ↔
          (c.user = caller.uid ∨ caller.role = adminChars ∨
            b.author = caller.uid)) ∧
        (¬(c.user = caller.uid ∨ caller.role = adminChars ∨
            b.author = caller.uid) →
          deleteComment store caller r1 r2 = DelCommentRes.forbidden)) := by
  refine ⟨?_, ?_, ?_⟩
  · intro store caller r1 r2 h
    unfold deleteComment
    rcases h with h | h
    · rw [if_pos (by simp [h])]
    · rw [if_pos (by simp [h])]
  · intro store caller r1 r2 h1 h2 hf
    unfold deleteComment
    rw [if_neg (by simp [h1, h2]), hf]
  · intro store caller r1 r2 b c h1 h2 hf
    have hstep : deleteComment store caller r1 r2 =
        commentAuthStep caller b c r2 := by
      unfold deleteComment
      rw [if_neg (by simp [h1, h2]), hf]
    rw [hstep]
    unfold commentAuthStep
    by_cases hperm : c.user = caller.uid ∨ caller.role = adminChars ∨
      b.author = caller.uid
    · have hcond : (!decide (c.user = caller.uid) &&
          !decide (caller.role = adminChars) &&
          !decide (b.author = caller.uid)) = false := by
        rcases hperm with h | h | h <;> simp [h]
      constructor
      · simp [hcond, hperm]
      · intro hn
        exact absurd hperm hn
    · have hcond : (!decide (c.user = caller.uid) &&
          !decide (caller.role = adminChars) &&
          !decide (b.author = caller.uid)) = true := by
        push_neg at hperm
        simp [hperm.1, hperm.2.1, hperm.2.2]
      constructor
      · simp [hcond, hperm]
      · intro _
        simp [hcond]

theorem delete_comment_authorization_witness :
    deleteComment sampleStore carolUser blogIdChars commentIdChars =
      DelCommentRes.forbidden ∧
    deleteComment sampleStore bobUser blogIdChars commentIdChars =
      DelCommentRes.ok [] := by
  constructor
  · exact (delete_comment_authorization.2.2 sampleStore carolUser blogIdChars
      commentIdChars sampleBlog sampleComment (by decide) (by decide)
      (by decide)).2 (by decide)
  · have h := (delete_comment_authorization.2.2 sampleStore bobUser
      blogIdChars commentIdChars sampleBlog sampleComment (by decide)
      (by decide) (by decide)).1.mpr (by decide)
    exact h.trans (by decide)

end We3
